import Mathlib

/-!
Verification of the `options` crate: a named-parameter store mapping
string names to type-erased value cells (`HashMap<Name, Value>` where
`Value(Box<dyn Any>)`).

Shallow embedding choices:
* Rust runtime types (`TypeId`) are modelled by an arbitrary type-code
  universe `Code` with decidable equality, together with an
  interpretation `interp : Code → Type` giving the Lean type denoted by
  each code.  Exact runtime type equality is equality of codes.
* A `Value` cell (`Box<dyn Any>`) is a dependent pair of the recorded
  type code and a payload of the interpreted type.  `downcast_ref`
  compares the recorded code with the requested one and transports the
  payload on success.
* The `HashMap` is modelled as an association list with the
  `HashMap::insert` semantics: replacing in place when the key is
  present, appending otherwise.  Iteration order of a `HashMap` is
  unspecified, so a list order is a legitimate refinement of it.
* Rust's `Clone` (used by `Option::cloned` inside `Value::get`) is
  modelled by an explicit family `cloneFn : ∀ t, interp t → interp t`;
  a well-behaved clone (one producing a value equal to the original) is
  an explicit hypothesis where a claim needs it.
* Mutation through the `&mut T` returned by `get_mut` is embedded by
  explicit state passing: `Options.write_mut o n t x` is the store
  after executing `if let Some(r) = o.get_mut::<T>(n) { *r = x }`.
-/

set_option linter.unusedSectionVars false

namespace OptionsCrate

variable {Code : Type} [DecidableEq Code] {interp : Code → Type}

/-- `pub struct Value(Box<dyn Any>)`: one type-erased payload together
with the runtime type recorded when the cell was created. -/
structure Value (Code : Type) (interp : Code → Type) where
  tag : Code
  payload : interp tag

/-- `pub type Name = String`. -/
abbrev Name : Type := String

/-- `pub struct Options(HashMap<Name, Value>)`, the map modelled as an
association list. -/
abbrev Options (Code : Type) (interp : Code → Type) : Type :=
  List (Name × Value Code interp)

/-- `HashMap::get`: the value associated with the (unique) key, if any. -/
def hmGet : Options Code interp → Name → Option (Value Code interp)
  | [], _ => none
  | (k, v) :: rest, n => if k = n then some v else hmGet rest n

/-- `HashMap::insert`: replace in place when the key is present
(keeping the existing key, as `HashMap::insert` does), append the new
entry otherwise. -/
def hmInsert (n : Name) (v : Value Code interp) :
    Options Code interp → Options Code interp
  | [] => [(n, v)]
  | (k, w) :: rest =>
      if k = n then (k, v) :: rest else (k, w) :: hmInsert n v rest

/-- `Value::get_ref::<T>`: `self.0.downcast_ref::<T>()` — succeeds iff
the recorded type code equals the requested one. -/
def Value.get_ref (v : Value Code interp) (t : Code) : Option (interp t) :=
  if h : v.tag = t then some (h ▸ v.payload) else none

/-- `Value::get::<T>`: `self.0.downcast_ref::<T>().cloned()`. -/
def Value.get (cloneFn : ∀ t : Code, interp t → interp t)
    (v : Value Code interp) (t : Code) : Option (interp t) :=
  (v.get_ref t).map (cloneFn t)

/-- `Value::get_mut::<T>`: `self.0.downcast_mut::<T>()` — the same
exact-type test as `get_ref`; the value readable through the returned
mutable borrow. -/
def Value.get_mut (v : Value Code interp) (t : Code) : Option (interp t) :=
  if h : v.tag = t then some (h ▸ v.payload) else none

/-- `Value::set::<T>`: `self.0 = Box::new(value)` — replaces contents
and recorded type unconditionally. -/
def Value.set (_v : Value Code interp) (t : Code) (x : interp t) :
    Value Code interp :=
  ⟨t, x⟩

/-- The effect on a cell of executing `*r = x` on the `&mut T` that
`Value::get_mut::<T>` returned; when `get_mut` returns `None` there is
no reference to write through and the cell is unchanged. -/
def Value.write_mut (v : Value Code interp) (t : Code) (x : interp t) :
    Value Code interp :=
  if v.tag = t then ⟨t, x⟩ else v

/-- `Options::new`: `Options(HashMap::new())`. -/
def Options.new : Options Code interp := []

/-- `Options::get::<T>`: `self.0.get(name).and_then(|value| value.get())`. -/
def Options.get (cloneFn : ∀ t : Code, interp t → interp t)
    (o : Options Code interp) (t : Code) (n : Name) : Option (interp t) :=
  (hmGet o n).bind (fun v => v.get cloneFn t)

/-- `Options::get_ref::<T>`:
`self.0.get(name).and_then(|value| value.get_ref())`. -/
def Options.get_ref (o : Options Code interp) (t : Code) (n : Name) :
    Option (interp t) :=
  (hmGet o n).bind (fun v => v.get_ref t)

/-- `Options::get_mut::<T>`:
`self.0.get_mut(name).and_then(|value| value.get_mut())` — the value
readable through the returned mutable borrow. -/
def Options.get_mut (o : Options Code interp) (t : Code) (n : Name) :
    Option (interp t) :=
  (hmGet o n).bind (fun v => v.get_mut t)

/-- `Options::set`:
`self.0.insert(name.to_string(), Value(Box::new(value)))`.  (The
returned `&mut self` for chaining is the resulting store itself.) -/
def Options.set (o : Options Code interp) (n : Name) (t : Code)
    (x : interp t) : Options Code interp :=
  hmInsert n ⟨t, x⟩ o

/-- `Options::has`: `self.0.contains_key(name)`. -/
def Options.has (o : Options Code interp) (n : Name) : Bool :=
  (hmGet o n).isSome

/-- `Options::names`: `self.0.iter().map(first)` — every stored key. -/
def Options.names (o : Options Code interp) : List Name :=
  o.map Prod.fst

/-- `Options::iter`: `self.0.iter()` — every stored entry. -/
def Options.iter (o : Options Code interp) : List (Name × Value Code interp) :=
  o

/-- The effect on the store of executing
`if let Some(r) = o.get_mut::<T>(n) { *r = x }`: the cell under `n`, if
its recorded type is `T`, has its payload replaced by `x`; every other
entry is untouched. -/
def Options.write_mut (o : Options Code interp) (n : Name) (t : Code)
    (x : interp t) : Options Code interp :=
  o.map (fun p => if p.1 = n then (p.1, p.2.write_mut t x) else p)

/-- A store reachable from `o` by a sequence of `set` calls, one per
element of `ops` in order. -/
def Options.runSets (o : Options Code interp)
    (ops : List (Name × Value Code interp)) : Options Code interp :=
  ops.foldl (fun s p => s.set p.1 p.2.tag p.2.payload) o

/-- A concrete universe of Rust types for evaluating the development on
the crate's own examples: `i32`, `bool`, `String`. -/
inductive RustTy : Type
  | i32
  | bool
  | str
  deriving DecidableEq

/-- The Lean types denoted by the codes of `RustTy`. -/
@[reducible] def rustInterp : RustTy → Type
  | .i32 => Int
  | .bool => Bool
  | .str => String

/-- `Clone` for the concrete universe: all three types clone by value
duplication, which Lean's value semantics renders as the identity. -/
def rustClone : ∀ t : RustTy, rustInterp t → rustInterp t :=
  fun _ x => x

/-! ### Basic lemmas about the association-list map -/

theorem hmGet_hmInsert (o : Options Code interp) (n m : Name)
    (v : Value Code interp) :
    hmGet (hmInsert n v o) m = if n = m then some v else hmGet o m := by
  induction o with
  | nil =>
      simp only [hmInsert, hmGet]
  | cons p rest ih =>
      obtain ⟨k, w⟩ := p
      by_cases hkn : k = n
      · subst hkn
        by_cases hkm : k = m <;> simp [hmInsert, hmGet, hkm]
      · by_cases hkm : k = m
        · have hnm : ¬ n = m := fun h => hkn (hkm.trans h.symm)
          subst hkm
          simp [hmInsert, hmGet, hkn, hnm]
        · simp [hmInsert, hmGet, hkn, hkm, ih]

theorem hmInsert_hmInsert (o : Options Code interp) (n : Name)
    (v1 v2 : Value Code interp) :
    hmInsert n v2 (hmInsert n v1 o) = hmInsert n v2 o := by
  induction o with
  | nil => simp [hmInsert]
  | cons p rest ih =>
      obtain ⟨k, w⟩ := p
      by_cases hkn : k = n <;> simp [hmInsert, hkn, ih]

theorem Value.get_ref_mk_same (t : Code) (x : interp t) :
    Value.get_ref ⟨t, x⟩ t = some x := by
  simp [Value.get_ref]

theorem Value.get_ref_mk_other (t u : Code) (x : interp t) (h : u ≠ t) :
    Value.get_ref ⟨t, x⟩ u = none := by
  have h' : ¬ (t = u) := fun hh => h hh.symm
  simp [Value.get_ref, h']

theorem Value.get_mut_eq_get_ref (v : Value Code interp) (t : Code) :
    Value.get_mut v t = Value.get_ref v t := rfl

theorem names_cons (p : Name × Value Code interp)
    (rest : Options Code interp) :
    Options.names (p :: rest) = p.1 :: Options.names rest := rfl

theorem has_iff_mem_names (o : Options Code interp) (n : Name) :
    Options.has o n = true ↔ n ∈ Options.names o := by
  induction o with
  | nil => simp [Options.has, Options.names, hmGet]
  | cons p rest ih =>
      obtain ⟨k, w⟩ := p
      by_cases hkn : k = n
      · subst hkn
        simp [Options.has, Options.names, hmGet]
      · have hnk : n ≠ k := fun h => hkn h.symm
        have h1 : Options.has ((k, w) :: rest) n = Options.has rest n := by
          simp [Options.has, hmGet, hkn]
        have h2 : (n ∈ Options.names ((k, w) :: rest)) ↔
            n ∈ Options.names rest := by
          simp [names_cons, hnk]
        rw [h1, h2]
        exact ih

theorem names_hmInsert (o : Options Code interp) (n : Name)
    (v : Value Code interp) :
    Options.names (hmInsert n v o) =
      if (hmGet o n).isSome then Options.names o
      else Options.names o ++ [n] := by
  induction o with
  | nil => simp [Options.names, hmInsert, hmGet]
  | cons p rest ih =>
      obtain ⟨k, w⟩ := p
      by_cases hkn : k = n
      · subst hkn
        simp [Options.names, hmInsert, hmGet]
      · have hins : hmInsert n v ((k, w) :: rest) =
            (k, w) :: hmInsert n v rest := by
          simp [hmInsert, hkn]
        have hg : hmGet ((k, w) :: rest) n = hmGet rest n := by
          simp [hmGet, hkn]
        rw [hins, names_cons, names_cons, hg, ih]
        by_cases hr : (hmGet rest n).isSome <;> simp [hr]

theorem names_nodup_hmInsert (o : Options Code interp) (n : Name)
    (v : Value Code interp) (h : (Options.names o).Nodup) :
    (Options.names (hmInsert n v o)).Nodup := by
  rw [names_hmInsert]
  by_cases hs : (hmGet o n).isSome
  · simpa [hs] using h
  · have hnot : n ∉ Options.names o := by
      intro hmem
      exact hs (by
        have := (has_iff_mem_names o n).mpr hmem
        simpa [Options.has] using this)
    simp [hs, List.nodup_append, h, hnot]

theorem runSets_nil (o : Options Code interp) :
    Options.runSets o [] = o := rfl

theorem runSets_cons (o : Options Code interp)
    (p : Name × Value Code interp) (ops : List (Name × Value Code interp)) :
    Options.runSets o (p :: ops) =
      Options.runSets (Options.set o p.1 p.2.tag p.2.payload) ops := rfl

theorem hmGet_set (o : Options Code interp) (n m : Name) (t : Code)
    (x : interp t) :
    hmGet (Options.set o n t x) m =
      if n = m then some ⟨t, x⟩ else hmGet o m :=
  hmGet_hmInsert o n m ⟨t, x⟩

theorem has_set (o : Options Code interp) (n m : Name) (t : Code)
    (x : interp t) :
    Options.has (Options.set o n t x) m =
      if n = m then true else Options.has o m := by
  rw [Options.has, hmGet_set]
  by_cases h : n = m <;> simp [h, Options.has]

theorem has_runSets (o : Options Code interp)
    (ops : List (Name × Value Code interp)) (n : Name) :
    Options.has (Options.runSets o ops) n =
      (Options.has o n || decide (n ∈ List.map Prod.fst ops)) := by
  induction ops generalizing o with
  | nil => simp [runSets_nil]
  | cons p rest ih =>
      rw [runSets_cons, ih, has_set]
      by_cases h : p.1 = n
      · simp [h]
      · have hn : ¬ n = p.1 := fun hh => h hh.symm
        have hb : (n == p.1) = false := by
          apply Bool.eq_false_iff.mpr
          intro hb
          exact hn (eq_of_beq hb)
        simp [h, hn, hb]

theorem hmGet_runSets_frame (o : Options Code interp)
    (ops : List (Name × Value Code interp)) (n : Name)
    (h : n ∉ List.map Prod.fst ops) :
    hmGet (Options.runSets o ops) n = hmGet o n := by
  induction ops generalizing o with
  | nil => rfl
  | cons p rest ih =>
      have hp : ¬ p.1 = n := fun hh => h (by simp [hh])
      have hrest : n ∉ List.map Prod.fst rest := fun hh => h (by simp [hh])
      rw [runSets_cons, ih _ hrest, hmGet_set, if_neg hp]

theorem names_runSets_nodup (o : Options Code interp)
    (ops : List (Name × Value Code interp))
    (h : (Options.names o).Nodup) :
    (Options.names (Options.runSets o ops)).Nodup := by
  induction ops generalizing o with
  | nil => exact h
  | cons p rest ih =>
      rw [runSets_cons]
      exact ih _ (names_nodup_hmInsert o p.1 ⟨p.2.tag, p.2.payload⟩ h)

theorem mem_names_runSets (o : Options Code interp)
    (ops : List (Name × Value Code interp)) (n : Name) :
    n ∈ Options.names (Options.runSets o ops) ↔
      n ∈ Options.names o ∨ n ∈ List.map Prod.fst ops := by
  have h1 := has_runSets o ops n
  have h2 := has_iff_mem_names (Options.runSets o ops) n
  have h3 := has_iff_mem_names o n
  constructor
  · intro hmem
    have : Options.has (Options.runSets o ops) n = true := h2.mpr hmem
    rw [h1] at this
    rcases Bool.or_eq_true_iff.mp this with hl | hr
    · exact Or.inl (h3.mp hl)
    · exact Or.inr (of_decide_eq_true hr)
  · intro hmem
    apply h2.mp
    rw [h1]
    apply Bool.or_eq_true_iff.mpr
    rcases hmem with hl | hr
    · exact Or.inl (h3.mpr hl)
    · exact Or.inr (decide_eq_true hr)

theorem write_mut_nil (n : Name) (t : Code) (x : interp t) :
    Options.write_mut ([] : Options Code interp) n t x = [] := rfl

theorem write_mut_cons (k : Name) (w : Value Code interp)
    (rest : Options Code interp) (n : Name) (t : Code) (x : interp t) :
    Options.write_mut ((k, w) :: rest) n t x =
      (if k = n then (k, Value.write_mut w t x) else (k, w)) ::
        Options.write_mut rest n t x := rfl

theorem hmGet_cons (k : Name) (w : Value Code interp)
    (rest : Options Code interp) (m : Name) :
    hmGet ((k, w) :: rest) m = if k = m then some w else hmGet rest m := rfl

theorem hmGet_write_mut (o : Options Code interp) (n m : Name) (t : Code)
    (x : interp t) :
    hmGet (Options.write_mut o n t x) m =
      if n = m then (hmGet o n).map (fun v => Value.write_mut v t x)
      else hmGet o m := by
  induction o with
  | nil =>
      by_cases h : n = m <;> simp [write_mut_nil, hmGet, h]
  | cons p rest ih =>
      obtain ⟨k, w⟩ := p
      rw [write_mut_cons]
      by_cases hkn : k = n
      · subst hkn
        rw [if_pos rfl]
        by_cases hkm : k = m
        · subst hkm
          simp [hmGet_cons]
        · simp [hmGet_cons, hkm, ih]
      · rw [if_neg hkn]
        by_cases hkm : k = m
        · subst hkm
          have hnm : ¬ n = k := fun hh => hkn hh.symm
          simp [hmGet_cons, hnm]
        · simp [hmGet_cons, hkm, hkn, ih]

theorem Value.write_mut_of_get_mut_some (v : Value Code interp) (t : Code)
    (x y : interp t) (h : Value.get_mut v t = some y) :
    Value.write_mut v t x = ⟨t, x⟩ := by
  by_cases ht : v.tag = t
  · simp [Value.write_mut, ht]
  · simp [Value.get_mut, ht] at h

/-! ### The claims -/

/-- Claim C1: for every store, name `n`, type `t` and value `x` whose
clone is a duplicate equal to `x` (the `Clone` contract), immediately
after `set(n, x)` the accessor `get::<T>(n)` returns `Some` of a
duplicate equal to `x` and `get_ref::<T>(n)` returns `Some` of a borrow
equal to `x`. -/
theorem C1_set_then_get (cloneFn : ∀ t : Code, interp t → interp t)
    (o : Options Code interp) (n : Name) (t : Code) (x : interp t)
    (hclone : cloneFn t x = x) :
    Options.get cloneFn (Options.set o n t x) t n = some x ∧
    Options.get_ref (Options.set o n t x) t n = some x := by
  have hget : hmGet (Options.set o n t x) n = some ⟨t, x⟩ := by
    rw [hmGet_set, if_pos rfl]
  constructor
  · simp [Options.get, hget, Value.get, Value.get_ref_mk_same, hclone]
  · simp [Options.get_ref, hget, Value.get_ref_mk_same]

theorem C1_witness :
    rustClone RustTy.i32 42 = 42 ∧
    Options.get rustClone
      (Options.set (Options.new) "foo" RustTy.i32 42) RustTy.i32 "foo" =
      some 42 ∧
    Options.get_ref
      (Options.set (Options.new : Options RustTy rustInterp) "foo" RustTy.i32 42)
      RustTy.i32 "foo" = some 42 :=
  ⟨rfl,
   (C1_set_then_get rustClone Options.new "foo" RustTy.i32 42 rfl).1,
   (C1_set_then_get rustClone Options.new "foo" RustTy.i32 42 rfl).2⟩

/-- Claim C2: if `set(n, x)` stored a value of runtime type `t` and no
later `set` touched `n` (any run of `set` calls on other names may
follow), then requesting a different type `u ≠ t` through `get`,
`get_ref` or `get_mut` yields `None` — exact runtime type equality, no
coercion — while `has(n)` is `true`. -/
theorem C2_type_mismatch (cloneFn : ∀ t : Code, interp t → interp t)
    (o : Options Code interp) (n : Name) (t : Code) (x : interp t)
    (u : Code) (ops : List (Name × Value Code interp))
    (hu : u ≠ t) (hops : n ∉ List.map Prod.fst ops) :
    Options.get cloneFn (Options.runSets (Options.set o n t x) ops) u n =
      none ∧
    Options.get_ref (Options.runSets (Options.set o n t x) ops) u n =
      none ∧
    Options.get_mut (Options.runSets (Options.set o n t x) ops) u n =
      none ∧
    Options.has (Options.runSets (Options.set o n t x) ops) n = true := by
  have hget : hmGet (Options.runSets (Options.set o n t x) ops) n =
      some ⟨t, x⟩ := by
    rw [hmGet_runSets_frame _ _ _ hops, hmGet_set, if_pos rfl]
  refine ⟨?_, ?_, ?_, ?_⟩
  · simp [Options.get, hget, Value.get, Value.get_ref_mk_other t u x hu]
  · simp [Options.get_ref, hget, Value.get_ref_mk_other t u x hu]
  · simp [Options.get_mut, hget, Value.get_mut_eq_get_ref,
      Value.get_ref_mk_other t u x hu]
  · simp [Options.has, hget]

theorem C2_witness :
    RustTy.str ≠ RustTy.i32 ∧
    ("a" : Name) ∉ List.map Prod.fst
      [(("b" : Name), (⟨RustTy.bool, true⟩ : Value RustTy rustInterp))] ∧
    Options.get rustClone
      (Options.runSets (Options.set (Options.new : Options RustTy rustInterp)
        "a" RustTy.i32 42) [("b", ⟨RustTy.bool, true⟩)]) RustTy.str "a" =
      none ∧
    Options.has
      (Options.runSets (Options.set (Options.new : Options RustTy rustInterp)
        "a" RustTy.i32 42) [("b", ⟨RustTy.bool, true⟩)]) "a" = true :=
  ⟨by decide, by decide,
   (C2_type_mismatch rustClone (Options.new : Options RustTy rustInterp)
      "a" RustTy.i32 42 RustTy.str [("b", ⟨RustTy.bool, true⟩)]
      (by decide) (by decide)).1,
   (C2_type_mismatch rustClone (Options.new : Options RustTy rustInterp)
      "a" RustTy.i32 42 RustTy.str [("b", ⟨RustTy.bool, true⟩)]
      (by decide) (by decide)).2.2.2⟩

/-- Claim C3: the overwrite law — `set(n, x1); set(n, x2)` leaves the
store observationally equal, under `get`, `get_ref`, `has` and `names`,
to the store produced by `set(n, x2)` alone; the prior cell for `n` is
discarded. -/
theorem C3_overwrite (o : Options Code interp) (n : Name)
    (t1 : Code) (x1 : interp t1) (t2 : Code) (x2 : interp t2) :
    (∀ (cloneFn : ∀ t : Code, interp t → interp t) (u : Code) (m : Name),
      Options.get cloneFn (Options.set (Options.set o n t1 x1) n t2 x2) u m
        = Options.get cloneFn (Options.set o n t2 x2) u m) ∧
    (∀ (u : Code) (m : Name),
      Options.get_ref (Options.set (Options.set o n t1 x1) n t2 x2) u m
        = Options.get_ref (Options.set o n t2 x2) u m) ∧
    (∀ m : Name,
      Options.has (Options.set (Options.set o n t1 x1) n t2 x2) m
        = Options.has (Options.set o n t2 x2) m) ∧
    Options.names (Options.set (Options.set o n t1 x1) n t2 x2)
      = Options.names (Options.set o n t2 x2) := by
  have h : Options.set (Options.set o n t1 x1) n t2 x2 =
      Options.set o n t2 x2 :=
    hmInsert_hmInsert o n ⟨t1, x1⟩ ⟨t2, x2⟩
  exact ⟨fun cloneFn u m => by rw [h], fun u m => by rw [h],
    fun m => by rw [h], by rw [h]⟩

/-- Claim C4: `new()` returns an empty store, and for every store
reachable from `new()` by a sequence of `set` calls, `has(n)` is `true`
exactly for the names that were passed to some `set`, regardless of the
stored types, and `false` for every name never passed to `set`. -/
theorem C4_new_empty_has_reachable
    (ops : List (Name × Value Code interp)) (n : Name) :
    Options.names (Options.new : Options Code interp) = [] ∧
    (Options.has (Options.runSets (Options.new : Options Code interp) ops)
        n = true ↔ n ∈ List.map Prod.fst ops) := by
  refine ⟨rfl, ?_⟩
  rw [has_runSets]
  have hnew : Options.has (Options.new : Options Code interp) n = false :=
    rfl
  simp [hnew]

/-- Claim C5: for every store built from `new()` by a sequence of `set`
calls (any order, last write per key winning), `names()` yields exactly
the set of inserted keys, each exactly once (the sequence has no
duplicates); its order is left unspecified. -/
theorem C5_names_exact (ops : List (Name × Value Code interp)) (n : Name) :
    (Options.names
      (Options.runSets (Options.new : Options Code interp) ops)).Nodup ∧
    (n ∈ Options.names
        (Options.runSets (Options.new : Options Code interp) ops) ↔
      n ∈ List.map Prod.fst ops) := by
  constructor
  · exact names_runSets_nodup _ _ List.nodup_nil
  · have h := mem_names_runSets (Options.new : Options Code interp) ops n
    simpa [Options.new, Options.names] using h

/-- Claim C6: if the cell under `n` holds a value of runtime type `t`
(`get_mut::<T>(n)` succeeds), then after writing `x` through the
returned mutable reference, `get::<T>(n)` and `get_ref::<T>(n)` observe
`x` (the `get` side under the `Clone` contract at `x`). -/
theorem C6_get_mut_mutation (cloneFn : ∀ t : Code, interp t → interp t)
    (o : Options Code interp) (n : Name) (t : Code) (x x0 : interp t)
    (hmut : Options.get_mut o t n = some x0) (hclone : cloneFn t x = x) :
    Options.get cloneFn (Options.write_mut o n t x) t n = some x ∧
    Options.get_ref (Options.write_mut o n t x) t n = some x := by
  obtain ⟨v, hv, hgm⟩ := Option.bind_eq_some.mp hmut
  have hw : hmGet (Options.write_mut o n t x) n = some ⟨t, x⟩ := by
    rw [hmGet_write_mut, if_pos rfl, hv]
    simp [Value.write_mut_of_get_mut_some v t x x0 hgm]
  constructor
  · simp [Options.get, hw, Value.get, Value.get_ref_mk_same, hclone]
  · simp [Options.get_ref, hw, Value.get_ref_mk_same]

theorem C6_witness :
    Options.get_mut (Options.set (Options.new : Options RustTy rustInterp) "a"
      RustTy.i32 42) RustTy.i32 "a" = some 42 ∧
    rustClone RustTy.i32 24 = 24 ∧
    Options.get rustClone
      (Options.write_mut (Options.set
        (Options.new : Options RustTy rustInterp) "a" RustTy.i32 42) "a"
        RustTy.i32 24) RustTy.i32 "a" = some 24 ∧
    Options.get_ref
      (Options.write_mut (Options.set
        (Options.new : Options RustTy rustInterp) "a" RustTy.i32 42) "a"
        RustTy.i32 24) RustTy.i32 "a" = some 24 :=
  ⟨by decide, rfl,
   (C6_get_mut_mutation rustClone
      (Options.set (Options.new : Options RustTy rustInterp) "a"
        RustTy.i32 42) "a" RustTy.i32 24 42 (by decide) rfl).1,
   (C6_get_mut_mutation rustClone
      (Options.set (Options.new : Options RustTy rustInterp) "a"
        RustTy.i32 42) "a" RustTy.i32 24 42 (by decide) rfl).2⟩

/-- Claim C7: `Value::set(x)` replaces a cell's contents and recorded
type unconditionally, whatever type `u0` it held before: afterwards
`Value::get::<T>()` returns `Some x` (under the `Clone` contract at
`x`) and `Value::get::<U>()` with `u ≠ t` returns `None`. -/
theorem C7_value_set (cloneFn : ∀ t : Code, interp t → interp t)
    (v : Value Code interp) (t : Code) (x : interp t) (u : Code)
    (hu : u ≠ t) (hclone : cloneFn t x = x) :
    Value.get cloneFn (Value.set v t x) t = some x ∧
    Value.get cloneFn (Value.set v t x) u = none := by
  constructor
  · simp [Value.set, Value.get, Value.get_ref_mk_same, hclone]
  · simp [Value.set, Value.get, Value.get_ref_mk_other t u x hu]

theorem C7_witness :
    RustTy.str ≠ RustTy.i32 ∧
    Value.get rustClone
      (Value.set (⟨RustTy.bool, true⟩ : Value RustTy rustInterp)
        RustTy.i32 7) RustTy.i32 = some 7 ∧
    Value.get rustClone
      (Value.set (⟨RustTy.bool, true⟩ : Value RustTy rustInterp)
        RustTy.i32 7) RustTy.str = none :=
  ⟨by decide,
   (C7_value_set rustClone ⟨RustTy.bool, true⟩ RustTy.i32 7 RustTy.str
      (by decide) rfl).1,
   (C7_value_set rustClone ⟨RustTy.bool, true⟩ RustTy.i32 7 RustTy.str
      (by decide) rfl).2⟩

/-- Claim C8: the operations are total (they are total Lean functions
of the embedded state, with no panic outcome anywhere in their types):
`set` always succeeds for every name and value, and the accessors
signal absence only through an empty `Option` result — on a name the
store does not hold, each accessor returns `none`. -/
theorem C8_total_no_panic (cloneFn : ∀ t : Code, interp t → interp t)
    (o : Options Code interp) (n : Name) (t : Code) (x : interp t) :
    Options.has (Options.set o n t x) n = true ∧
    (Options.has o n = false →
      Options.get cloneFn o t n = none ∧
      Options.get_ref o t n = none ∧
      Options.get_mut o t n = none) := by
  constructor
  · rw [has_set, if_pos rfl]
  · intro h
    have hnone : hmGet o n = none := by
      cases hg : hmGet o n with
      | none => rfl
      | some v => rw [Options.has, hg] at h; simp at h
    simp [Options.get, Options.get_ref, Options.get_mut, hnone]

theorem C8_witness :
    Options.has (Options.set (Options.new : Options RustTy rustInterp) "a"
      RustTy.i32 42) "a" = true ∧
    Options.get rustClone (Options.new : Options RustTy rustInterp)
      RustTy.i32 "a" = none :=
  ⟨(C8_total_no_panic rustClone Options.new "a" RustTy.i32 42).1,
   ((C8_total_no_panic rustClone Options.new "a" RustTy.i32 42).2
      (by decide)).1⟩

/-- Claim C9: the frame property — for distinct names `m ≠ n`,
`set(n, x)` leaves the entry under `m` unchanged: `has(m)` and
`get`/`get_ref` at `m`, at every requested type, return exactly what
they returned before the call. -/
theorem C9_set_frame (cloneFn : ∀ t : Code, interp t → interp t)
    (o : Options Code interp) (n m : Name) (t : Code) (x : interp t)
    (hm : m ≠ n) :
    Options.has (Options.set o n t x) m = Options.has o m ∧
    (∀ u : Code,
      Options.get cloneFn (Options.set o n t x) u m =
        Options.get cloneFn o u m) ∧
    (∀ u : Code,
      Options.get_ref (Options.set o n t x) u m =
        Options.get_ref o u m) := by
  have hg : hmGet (Options.set o n t x) m = hmGet o m := by
    rw [hmGet_set, if_neg (fun hh => hm hh.symm)]
  exact ⟨by simp only [Options.has, hg],
    fun u => by simp only [Options.get, hg],
    fun u => by simp only [Options.get_ref, hg]⟩

theorem C9_witness :
    ("b" : Name) ≠ "a" ∧
    Options.has (Options.set (Options.set
      (Options.new : Options RustTy rustInterp) "b" RustTy.bool true) "a"
      RustTy.i32 42) "b" =
      Options.has (Options.set (Options.new : Options RustTy rustInterp) "b"
        RustTy.bool true) "b" ∧
    Options.get rustClone (Options.set (Options.set
      (Options.new : Options RustTy rustInterp) "b" RustTy.bool true) "a"
      RustTy.i32 42) RustTy.bool "b" =
      Options.get rustClone (Options.set
        (Options.new : Options RustTy rustInterp) "b" RustTy.bool true)
        RustTy.bool "b" :=
  ⟨by decide,
   (C9_set_frame rustClone
      (Options.set Options.new "b" RustTy.bool true) "a" "b" RustTy.i32 42
      (by decide)).1,
   ((C9_set_frame rustClone
      (Options.set Options.new "b" RustTy.bool true) "a" "b" RustTy.i32 42
      (by decide)).2.1) RustTy.bool⟩

/-- Claim C10: accessor coherence — `get::<T>(n)` equals the result of
cloning the value behind `get_ref::<T>(n)`: both are `none`, or `get`
returns `Some` of a clone of the borrow `get_ref` returns.  (The
read-only accessors take the store as a pure argument in this
embedding, so their inability to modify it, and the equality of
repeated calls without intervening mutation, are intrinsic.) -/
theorem C10_get_is_cloned_get_ref (cloneFn : ∀ t : Code, interp t → interp t)
    (o : Options Code interp) (t : Code) (n : Name) :
    Options.get cloneFn o t n =
      (Options.get_ref o t n).map (cloneFn t) := by
  simp only [Options.get, Options.get_ref]
  cases hg : hmGet o n with
  | none => rfl
  | some v => simp [Value.get]

example :
    Options.get rustClone
      (Options.set (Options.new) "foo" RustTy.i32 42) RustTy.i32 "foo" =
      some 42 := by
  decide

example :
    Options.get rustClone
      (Options.set (Options.new) "foo" RustTy.i32 42) RustTy.str "foo" =
      none := by
  decide

example :
    Options.has (Options.set (Options.new : Options RustTy rustInterp) "foo"
      RustTy.i32 42) "bar" = false := by
  decide

end OptionsCrate
